import Mathlib

/-
Verification development for the Serialisation framework (Serialisation.hpp).

The framework has three operation contexts over one dispatch engine:
  * Serialiser    - writes a value into a caller-owned byte buffer at a
                    forward-moving write head (SerialiseAsMemory does memcpy
                    and advances the head);
  * Deserialiser  - reads a value back from such a buffer at a forward-moving
                    read head (DeserialiseAsMemory does memcpy and advances);
  * Sizer         - accumulates the byte count the Serialiser would write.

We embed the three contexts shallowly:
  * the Serialiser state is the list of bytes written so far (the head is at
    the end of the list, GetBytesWritten is the length);
  * the Deserialiser state is the whole buffer plus the head offset;
  * the Sizer state is the running total.

Values are embedded by a universe `Val` covering representative instantiations
of the C++ templates: raw leaf objects, std::basic_string, std::vector,
fixed-size arrays (T[N] / std::array), std::pair, std::map< size_t, size_t >,
std::set< size_t >, std::priority_queue< size_t > and hooked objects whose
OnSerialise / OnDeserialise / OnSize hooks stream their fields in declared
order (the documented ExampleStruct pattern). A 64-bit build is assumed:
size_t, ptrdiff_t and container size_type are 8 bytes.
-/

/-- Width in bytes of the platform size type (size_t on the 64-bit build). -/
def sizeTBytes : Nat := 8

/-- Little-endian bytes of a natural, truncated to `n` bytes: what memcpy of
an `n`-byte unsigned integer writes into the buffer. -/
def encodeLE : Nat → Nat → List Nat
  | 0, _ => []
  | n + 1, k => k % 256 :: encodeLE n (k / 256)

/-- Little-endian value of a byte list: what memcpy out of the buffer into an
unsigned integer reconstructs. -/
def decodeLE : List Nat → Nat
  | [] => 0
  | b :: bs => b + 256 * decodeLE bs

/-- The bytes written for one size_t value (the count header of every
variable-length container). -/
def encodeSize (k : Nat) : List Nat := encodeLE sizeTBytes k

theorem encodeLE_length (n k : Nat) : (encodeLE n k).length = n := by
  induction n generalizing k with
  | zero => rfl
  | succ n ih => simp [encodeLE, ih]

theorem encodeSize_length (k : Nat) : (encodeSize k).length = sizeTBytes :=
  encodeLE_length _ _

theorem decodeLE_encodeLE (n k : Nat) : decodeLE (encodeLE n k) = k % 256 ^ n := by
  induction n generalizing k with
  | zero => simp [encodeLE, decodeLE, Nat.mod_one]
  | succ n ih =>
      simp only [encodeLE, decodeLE, ih]
      rw [pow_succ, mul_comm (256 ^ n) 256, Nat.mod_mul]

theorem encodeLE_mod (n k : Nat) : encodeLE n (k % 256 ^ n) = encodeLE n k := by
  induction n generalizing k with
  | zero => rfl
  | succ n ih =>
      simp only [encodeLE]
      congr 1
      · rw [pow_succ, mul_comm (256 ^ n) 256, Nat.mod_mul_right_mod]
      · rw [pow_succ, mul_comm (256 ^ n) 256, Nat.mod_mul_right_div_self, ih]

theorem decodeLE_encodeSize (k : Nat) (h : k < 2 ^ 64) :
    decodeLE (encodeSize k) = k := by
  have h256 : (256 : Nat) ^ 8 = 2 ^ 64 := by norm_num
  rw [encodeSize, decodeLE_encodeLE, sizeTBytes, h256, Nat.mod_eq_of_lt h]

/-! ## Serialiser primitives (class Serialiser) -/

/-- Serialiser::SerialiseAsMemory: memcpy `bs` to the write head and advance
the head by the byte count. The state is the bytes written so far. -/
def SerialiseAsMemory (st : List Nat) (bs : List Nat) : List Nat := st ++ bs

/-- Serialiser::GetBytesWritten: distance from buffer start to the head. -/
def GetBytesWritten (st : List Nat) : Nat := st.length

/-! ## Deserialiser primitives (class Deserialiser) -/

/-- Deserialiser state: the caller-owned source buffer (m_Data) and the
offset of the read head (m_Head - m_Data). -/
structure DState where
  data : List Nat
  head : Nat
deriving Repr, DecidableEq

/-- Deserialiser::DeserialiseAsMemory: memcpy `n` bytes out of the buffer at
the read head into the destination object and advance the head. -/
def DeserialiseAsMemory (n : Nat) (st : DState) : List Nat × DState :=
  ((st.data.drop st.head).take n, ⟨st.data, st.head + n⟩)

/-- Deserialiser::GetBytesRead. -/
def GetBytesRead (st : DState) : Nat := st.head

theorem DeserialiseAsMemory_at (pre mid rest : List Nat) (n : Nat)
    (h : mid.length = n) :
    DeserialiseAsMemory n ⟨pre ++ (mid ++ rest), pre.length⟩ =
      (mid, ⟨pre ++ (mid ++ rest), pre.length + n⟩) := by
  simp [DeserialiseAsMemory, List.drop_left, ← h, List.take_left]

/-! ## Sizer primitives (class Sizer) -/

/-- Sizer::AddSizeOfMemory: add an explicit byte count to the tally. -/
def AddSizeOfMemory (sz : Nat) (n : Nat) : Nat := sz + n

/-!
## Hook dispatch (Serialisation::Serialise / Serialisation::Deserialise)

`Serialisation::Serialise` runs, in order and each guarded by its own
compile-time capability test:
  OnBeforeSerialise (if declared), then OnSerialise if declared else the raw
  SerialiseAsMemory byte copy, then OnAfterSerialise (if declared).
`Serialisation::Deserialise` is structurally identical with the Deserialise
hooks. We record the observable call sequence of one dispatch as a trace.
-/

/-- One observable event inside a single dispatch of the engine. -/
inductive HookEvent where
  | beforeHook : HookEvent
  | coreHook : HookEvent
  | rawCopy : HookEvent
  | afterHook : HookEvent
deriving DecidableEq, Repr

/-- Trace of Serialisation::Serialise for a type whose capability detector
reports the three serialise-side hooks as `hasBefore`, `hasCore`, `hasAfter`. -/
def serialiseDispatch (hasBefore hasCore hasAfter : Bool) : List HookEvent :=
  (if hasBefore then [HookEvent.beforeHook] else []) ++
  (if hasCore then [HookEvent.coreHook] else [HookEvent.rawCopy]) ++
  (if hasAfter then [HookEvent.afterHook] else [])

/-- Trace of Serialisation::Deserialise for a type whose capability detector
reports the three deserialise-side hooks. -/
def deserialiseDispatch (hasBefore hasCore hasAfter : Bool) : List HookEvent :=
  (if hasBefore then [HookEvent.beforeHook] else []) ++
  (if hasCore then [HookEvent.coreHook] else [HookEvent.rawCopy]) ++
  (if hasAfter then [HookEvent.afterHook] else [])

/-- Phase of an event inside the dispatch: before-phase, core-phase,
after-phase. The raw byte copy is the core-phase fallback. -/
def hookPhase : HookEvent → Nat
  | HookEvent.beforeHook => 0
  | HookEvent.coreHook => 1
  | HookEvent.rawCopy => 1
  | HookEvent.afterHook => 2

/-- Claim C4: in a single write (or read) dispatch the declared before-hook
runs before the core hook, which runs before the declared after-hook, each
exactly once and only if the type declares it; the before/after hooks still
run when the core hook is absent, with the raw byte copy between them. -/
theorem hook_order_per_dispatch :
    ∀ b c a : Bool,
      (serialiseDispatch b c a).count HookEvent.beforeHook = (if b then 1 else 0) ∧
      (serialiseDispatch b c a).count HookEvent.coreHook = (if c then 1 else 0) ∧
      (serialiseDispatch b c a).count HookEvent.afterHook = (if a then 1 else 0) ∧
      (serialiseDispatch b c a).count HookEvent.rawCopy = (if c then 0 else 1) ∧
      (serialiseDispatch b c a).Pairwise (fun x y => hookPhase x < hookPhase y) ∧
      deserialiseDispatch b c a = serialiseDispatch b c a := by
  decide

/-!
## Count headers of the variable-length container codecs (Claim C8)

Each Serialiser::SerialiseAsContainer overload for a variable-length
container first computes the element count and memcpy-writes it, then runs
the per-element functor over the elements in traversal order. For
std::vector / std::list / std::deque / std::map (and the multi/unordered
variants, which are textually identical to the map/set codecs) the count is
`a_Container.size()` of type size_type = size_t (unsigned, 8 bytes); for
std::basic_string it is `length()`; for std::forward_list it is
`std::distance(begin, end)` of type difference_type = ptrdiff_t (signed,
8 bytes), memcpy of which writes the two's-complement bytes. -/

/-- Bytes memcpy writes for one ptrdiff_t value (two's-complement, 8 bytes). -/
def encodeDiff (i : Int) : List Nat := encodeLE sizeTBytes (i % (2 : Int) ^ 64).toNat

/-- Serialiser::SerialiseAsContainer( const std::vector& ): write size(),
then each element through the functor. -/
def serialiseVector {α : Type} (f : List Nat → α → List Nat)
    (st : List Nat) (c : List α) : List Nat :=
  c.foldl f (SerialiseAsMemory st (encodeSize c.length))

/-- Serialiser::SerialiseAsContainer( const std::list& ). -/
def serialiseListSeq {α : Type} (f : List Nat → α → List Nat)
    (st : List Nat) (c : List α) : List Nat :=
  c.foldl f (SerialiseAsMemory st (encodeSize c.length))

/-- Serialiser::SerialiseAsContainer( const std::deque& ). -/
def serialiseDeque {α : Type} (f : List Nat → α → List Nat)
    (st : List Nat) (c : List α) : List Nat :=
  c.foldl f (SerialiseAsMemory st (encodeSize c.length))

/-- Serialiser::SerialiseAsContainer( const std::map& ): the map codec
traverses its (key, value) pairs with the one functor. -/
def serialiseMap {α : Type} (f : List Nat → α → List Nat)
    (st : List Nat) (c : List α) : List Nat :=
  c.foldl f (SerialiseAsMemory st (encodeSize c.length))

/-- Serialiser::SerialiseAsContainer( const std::set& ). -/
def serialiseSetC {α : Type} (f : List Nat → α → List Nat)
    (st : List Nat) (c : List α) : List Nat :=
  c.foldl f (SerialiseAsMemory st (encodeSize c.length))

/-- Serialiser::SerialiseAsContainer( const std::forward_list& ): the count
is std::distance over the list, a ptrdiff_t. -/
def serialiseForwardList {α : Type} (f : List Nat → α → List Nat)
    (st : List Nat) (c : List α) : List Nat :=
  c.foldl f (SerialiseAsMemory st (encodeDiff (c.length : Int)))

/-- Serialiser::SerialiseAsContainer( const std::basic_string& ): write
length(), then the raw character bytes. -/
def serialiseString (st : List Nat) (s : List Nat) : List Nat :=
  SerialiseAsMemory (SerialiseAsMemory st (encodeSize s.length)) s

theorem encodeDiff_ofNat (len : Nat) : encodeDiff (len : Int) = encodeSize len := by
  have hcast : ((len : Int) % (2 : Int) ^ 64).toNat = len % 2 ^ 64 := by
    have h2 : ((2 : Int) ^ 64) = ((2 ^ 64 : Nat) : Int) := by push_cast
    rw [h2, ← Int.natCast_mod, Int.toNat_natCast]
  have h256 : (256 : Nat) ^ 8 = 2 ^ 64 := by norm_num
  rw [encodeDiff, hcast, encodeSize, sizeTBytes, ← h256, encodeLE_mod]

/-- Claim C8: every variable-length container codec writes its element count
first as an 8-byte header whose bytes are the platform unsigned size encoding
of the count, and then folds the per-element functor over the elements; the
forward_list codec's signed distance header writes the same bytes. -/
theorem container_count_headers :
    ∀ (len : Nat), (encodeSize len).length = sizeTBytes ∧
      encodeDiff (len : Int) = encodeSize len ∧
      (∀ (α : Type) (f : List Nat → α → List Nat) (st : List Nat) (c : List α),
        serialiseVector f st c = c.foldl f (st ++ encodeSize c.length) ∧
        serialiseListSeq f st c = c.foldl f (st ++ encodeSize c.length) ∧
        serialiseDeque f st c = c.foldl f (st ++ encodeSize c.length) ∧
        serialiseMap f st c = c.foldl f (st ++ encodeSize c.length) ∧
        serialiseSetC f st c = c.foldl f (st ++ encodeSize c.length) ∧
        serialiseForwardList f st c = c.foldl f (st ++ encodeSize c.length)) ∧
      (∀ (st s : List Nat), serialiseString st s = st ++ encodeSize s.length ++ s) := by
  intro len
  refine ⟨encodeSize_length len, encodeDiff_ofNat len, ?_, ?_⟩
  · intro α f st c
    refine ⟨rfl, rfl, rfl, rfl, rfl, ?_⟩
    rw [serialiseForwardList, SerialiseAsMemory, encodeDiff_ofNat]
  · intro st s
    simp [serialiseString, SerialiseAsMemory]

/-!
## The value universe

`Val` covers one representative instantiation of each dispatch path of the
engine, mirroring exactly what each Serialiser / Deserialiser / Sizer codec
does on that shape:
  * `leaf bs`   - an object with no hooks and no container shape; memcpy of
                  its `bs.length`-byte representation;
  * `str cs`    - std::basic_string (one byte per character);
  * `vec es`    - std::vector of sub-objects;
  * `arr es`    - a fixed-size T[N] / std::array with N = es.length;
  * `pairV a b` - std::pair (std::tuple is the same positional expansion);
  * `mapV en`   - std::map< size_t, size_t > as its sorted entry list;
  * `setV xs`   - std::set< size_t > as its sorted element list;
  * `pq h`      - std::priority_queue< size_t > as its underlying heap vector;
  * `obj fs`    - a hooked object whose OnSerialise / OnDeserialise / OnSize
                  hooks stream the fields in declared order.
-/

inductive Val where
  | leaf : List Nat → Val
  | str : List Nat → Val
  | vec : List Val → Val
  | arr : List Val → Val
  | pairV : Val → Val → Val
  | mapV : List (Nat × Nat) → Val
  | setV : List Nat → Val
  | pq : List Nat → Val
  | obj : List Val → Val

/-- Writing one size_t element through the default element functor:
`operator<<` on a hookless, non-container 8-byte object is SerialiseAsMemory
of its bytes. -/
def serialiseSizeT (st : List Nat) (x : Nat) : List Nat :=
  SerialiseAsMemory st (encodeSize x)

/-- The set / priority_queue-heap element loop: the default functor writes
each size_t element in traversal order. -/
def serialiseNats (st : List Nat) (xs : List Nat) : List Nat :=
  xs.foldl serialiseSizeT st

/-- The map element loop: each traversed pair goes through `operator<<` on
std::pair, which writes first then second. -/
def serialiseEntries (st : List Nat) (en : List (Nat × Nat)) : List Nat :=
  en.foldl (fun s p => serialiseSizeT (serialiseSizeT s p.1) p.2) st

mutual

/-- One `Serialiser::operator<<` dispatch: container codecs write the count
header then the elements; hooked objects run OnSerialise over their fields;
leaves are SerialiseAsMemory of their representation. -/
def serialiseVal (st : List Nat) : Val → List Nat
  | Val.leaf bs => SerialiseAsMemory st bs
  | Val.str cs =>
      SerialiseAsMemory (SerialiseAsMemory st (encodeSize cs.length)) cs
  | Val.vec es => serialiseValList (SerialiseAsMemory st (encodeSize es.length)) es
  | Val.arr es => serialiseValList (SerialiseAsMemory st (encodeSize es.length)) es
  | Val.pairV a b => serialiseVal (serialiseVal st a) b
  | Val.mapV en => serialiseEntries (SerialiseAsMemory st (encodeSize en.length)) en
  | Val.setV xs => serialiseNats (SerialiseAsMemory st (encodeSize xs.length)) xs
  | Val.pq h => serialiseNats (SerialiseAsMemory st (encodeSize h.length)) h
  | Val.obj fs => serialiseValList st fs

/-- The default element functor folded over a list of sub-objects. -/
def serialiseValList (st : List Nat) : List Val → List Nat
  | [] => st
  | v :: vs => serialiseValList (serialiseVal st v) vs

end

/-- Sizing one size_t element through the default functor: AddSizeOfMemory
of sizeof(size_t). -/
def sizeOfSizeT (sz : Nat) (_ : Nat) : Nat := AddSizeOfMemory sz sizeTBytes

mutual

/-- One `Sizer::operator+` dispatch, mirroring each AddSizeOfContainer
overload: count-header size plus element sizes for containers, OnSize over
the fields for hooked objects, sizeof for leaves. -/
def sizeOfVal (sz : Nat) : Val → Nat
  | Val.leaf bs => AddSizeOfMemory sz bs.length
  | Val.str cs => AddSizeOfMemory (AddSizeOfMemory sz sizeTBytes) cs.length
  | Val.vec es => sizeOfValList (AddSizeOfMemory sz sizeTBytes) es
  | Val.arr es => sizeOfValList (AddSizeOfMemory sz sizeTBytes) es
  | Val.pairV a b => sizeOfVal (sizeOfVal sz a) b
  | Val.mapV en =>
      en.foldl (fun s p => sizeOfSizeT (sizeOfSizeT s p.1) p.2)
        (AddSizeOfMemory sz sizeTBytes)
  | Val.setV xs => xs.foldl sizeOfSizeT (AddSizeOfMemory sz sizeTBytes)
  | Val.pq h => h.foldl sizeOfSizeT (AddSizeOfMemory sz sizeTBytes)
  | Val.obj fs => sizeOfValList sz fs

/-- The default element sizing functor folded over a list of sub-objects. -/
def sizeOfValList (sz : Nat) : List Val → Nat
  | [] => sz
  | v :: vs => sizeOfValList (sizeOfVal sz v) vs

end

theorem serialiseNats_length (st : List Nat) (xs : List Nat) :
    (serialiseNats st xs).length = xs.foldl sizeOfSizeT st.length := by
  induction xs generalizing st with
  | nil => rfl
  | cons x xs ih =>
      simp only [serialiseNats, List.foldl_cons] at *
      rw [ih]
      simp [serialiseSizeT, SerialiseAsMemory, sizeOfSizeT, AddSizeOfMemory,
        encodeSize_length]

theorem serialiseEntries_length (st : List Nat) (en : List (Nat × Nat)) :
    (serialiseEntries st en).length =
      en.foldl (fun s p => sizeOfSizeT (sizeOfSizeT s p.1) p.2) st.length := by
  induction en generalizing st with
  | nil => rfl
  | cons e en ih =>
      simp only [serialiseEntries, List.foldl_cons] at *
      rw [ih]
      simp only [serialiseSizeT, SerialiseAsMemory, sizeOfSizeT, AddSizeOfMemory,
        List.length_append, encodeSize_length]

mutual

theorem serialiseVal_length : ∀ (v : Val) (st : List Nat),
    (serialiseVal st v).length = sizeOfVal st.length v
  | Val.leaf bs, st => by
      simp [serialiseVal, sizeOfVal, SerialiseAsMemory, AddSizeOfMemory]
  | Val.str cs, st => by
      simp only [serialiseVal, sizeOfVal, SerialiseAsMemory, AddSizeOfMemory,
        List.length_append, encodeSize_length]
  | Val.vec es, st => by
      rw [serialiseVal, sizeOfVal, serialiseValList_length]
      simp [SerialiseAsMemory, AddSizeOfMemory, encodeSize_length]
  | Val.arr es, st => by
      rw [serialiseVal, sizeOfVal, serialiseValList_length]
      simp [SerialiseAsMemory, AddSizeOfMemory, encodeSize_length]
  | Val.pairV a b, st => by
      rw [serialiseVal, sizeOfVal, serialiseVal_length b, serialiseVal_length a]
  | Val.mapV en, st => by
      rw [serialiseVal, sizeOfVal, serialiseEntries_length]
      simp [SerialiseAsMemory, AddSizeOfMemory, encodeSize_length]
  | Val.setV xs, st => by
      rw [serialiseVal, sizeOfVal, serialiseNats_length]
      simp [SerialiseAsMemory, AddSizeOfMemory, encodeSize_length]
  | Val.pq h, st => by
      rw [serialiseVal, sizeOfVal, serialiseNats_length]
      simp [SerialiseAsMemory, AddSizeOfMemory, encodeSize_length]
  | Val.obj fs, st => by
      rw [serialiseVal, sizeOfVal, serialiseValList_length]

theorem serialiseValList_length : ∀ (vs : List Val) (st : List Nat),
    (serialiseValList st vs).length = sizeOfValList st.length vs
  | [], st => rfl
  | v :: vs, st => by
      rw [serialiseValList, sizeOfValList, serialiseValList_length vs,
        serialiseVal_length v]

end

theorem foldl_sizeOfSizeT (xs : List Nat) (sz : Nat) :
    xs.foldl sizeOfSizeT sz = sz + sizeTBytes * xs.length := by
  induction xs generalizing sz with
  | nil => simp
  | cons x xs ih =>
      simp only [List.foldl_cons, ih, sizeOfSizeT, AddSizeOfMemory,
        List.length_cons, sizeTBytes]
      omega

theorem foldl_sizeOfEntry (en : List (Nat × Nat)) (sz : Nat) :
    en.foldl (fun s p => sizeOfSizeT (sizeOfSizeT s p.1) p.2) sz =
      sz + 2 * sizeTBytes * en.length := by
  induction en generalizing sz with
  | nil => simp
  | cons e en ih =>
      rw [List.foldl_cons, ih]
      simp only [sizeOfSizeT, AddSizeOfMemory, List.length_cons, sizeTBytes]
      omega

mutual

theorem sizeOfVal_add : ∀ (v : Val) (sz : Nat),
    sizeOfVal sz v = sz + sizeOfVal 0 v
  | Val.leaf bs, sz => by simp [sizeOfVal, AddSizeOfMemory]
  | Val.str cs, sz => by simp [sizeOfVal, AddSizeOfMemory]; omega
  | Val.vec es, sz => by
      rw [sizeOfVal, sizeOfVal, sizeOfValList_add es,
        sizeOfValList_add es (AddSizeOfMemory 0 sizeTBytes)]
      simp [AddSizeOfMemory]; omega
  | Val.arr es, sz => by
      rw [sizeOfVal, sizeOfVal, sizeOfValList_add es,
        sizeOfValList_add es (AddSizeOfMemory 0 sizeTBytes)]
      simp [AddSizeOfMemory]; omega
  | Val.pairV a b, sz => by
      rw [sizeOfVal, sizeOfVal, sizeOfVal_add b, sizeOfVal_add a,
        sizeOfVal_add b (sizeOfVal 0 a)]
      omega
  | Val.mapV en, sz => by
      simp only [sizeOfVal, foldl_sizeOfEntry, AddSizeOfMemory]; omega
  | Val.setV xs, sz => by
      simp only [sizeOfVal, foldl_sizeOfSizeT, AddSizeOfMemory]; omega
  | Val.pq h, sz => by
      simp only [sizeOfVal, foldl_sizeOfSizeT, AddSizeOfMemory]; omega
  | Val.obj fs, sz => by rw [sizeOfVal, sizeOfVal, sizeOfValList_add fs]

theorem sizeOfValList_add : ∀ (vs : List Val) (sz : Nat),
    sizeOfValList sz vs = sz + sizeOfValList 0 vs
  | [], sz => by simp [sizeOfValList]
  | v :: vs, sz => by
      rw [sizeOfValList, sizeOfValList, sizeOfValList_add vs,
        sizeOfVal_add v, sizeOfValList_add vs (sizeOfVal 0 v)]
      omega

end

/-- Claim C1: for every value of every supported shape, the byte count a
fresh Sizer accumulates equals the number of bytes the Serialiser's write
head advances when writing the value (from any starting head position). -/
theorem measure_eq_bytes_written :
    ∀ (v : Val) (st : List Nat),
      sizeOfVal 0 v = GetBytesWritten (serialiseVal st v) - GetBytesWritten st ∧
      GetBytesWritten (serialiseVal [] v) = sizeOfVal 0 v := by
  intro v st
  constructor
  · rw [GetBytesWritten, GetBytesWritten, serialiseVal_length v st,
      sizeOfVal_add v st.length]
    omega
  · rw [GetBytesWritten, serialiseVal_length v []]
    rfl

/-!
## Deserialiser traversal over the universe

`Ty` is the static C++ type driving the Deserialiser's overload dispatch;
`deserialiseVal` mirrors the matching DeserialiseAsContainer /
DeserialiseAsObject / DeserialiseAsMemory path into a fresh destination.
For the fixed-size array path the destination capacity is part of the type
and the codec consumes min(capacity, stored count) elements, exactly as the
source loop does; the general fixed-array path over a live destination is
modelled separately below for Claim C3.
-/

inductive Ty where
  | leafTy : Nat → Ty
  | strTy : Ty
  | vecTy : Ty → Ty
  | arrTy : Ty → Nat → Ty
  | pairTy : Ty → Ty → Ty
  | mapTy : Ty
  | setTy : Ty
  | pqTy : Ty
  | objTy : List Ty → Ty

/-- Reading one size_t element with the default functor: memcpy 8 bytes out
of the buffer into the integer. -/
def deserialiseSizeT (st : DState) : Nat × DState :=
  let r := DeserialiseAsMemory sizeTBytes st
  (decodeLE r.1, r.2)

/-- The element loop of the vector< size_t > codec after the resize (this is
what the priority_queue codec runs on its underlying heap vector). -/
def deserialiseNats : Nat → DState → List Nat × DState
  | 0, st => ([], st)
  | n + 1, st =>
      let r := deserialiseSizeT st
      let rs := deserialiseNats n r.2
      (r.1 :: rs.1, rs.2)

/-- std::map::emplace on the sorted unique-key entry list: insert at the
sorted position; when the key is already present the container is unchanged
(the earlier entry is kept and no error surfaces). -/
def mapEmplace : List (Nat × Nat) → Nat → Nat → List (Nat × Nat)
  | [], k, v => [(k, v)]
  | (k0, v0) :: m, k, v =>
      if k < k0 then (k, v) :: (k0, v0) :: m
      else if k0 < k then (k0, v0) :: mapEmplace m k v
      else (k0, v0) :: m

/-- std::set::emplace on the sorted unique element list. -/
def setEmplace : List Nat → Nat → List Nat
  | [], x => [x]
  | y :: s, x =>
      if x < y then x :: y :: s
      else if y < x then y :: setEmplace s x
      else y :: s

/-- The element loop of the map codec: read a key, read a value, emplace the
pair; repeat for the stored count. -/
def deserialiseMapLoop : Nat → List (Nat × Nat) → DState → List (Nat × Nat) × DState
  | 0, acc, st => (acc, st)
  | n + 1, acc, st =>
      let k := deserialiseSizeT st
      let v := deserialiseSizeT k.2
      deserialiseMapLoop n (mapEmplace acc k.1 v.1) v.2

/-- The element loop of the set codec: read a value, emplace it; repeat. -/
def deserialiseSetLoop : Nat → List Nat → DState → List Nat × DState
  | 0, acc, st => (acc, st)
  | n + 1, acc, st =>
      let x := deserialiseSizeT st
      deserialiseSetLoop n (setEmplace acc x.1) x.2

mutual

/-- One `Deserialiser::operator>>` dispatch into a fresh destination of the
given static type. -/
def deserialiseVal : Ty → DState → Val × DState
  | Ty.leafTy n, st =>
      let r := DeserialiseAsMemory n st
      (Val.leaf r.1, r.2)
  | Ty.strTy, st =>
      let s := DeserialiseAsMemory sizeTBytes st
      let r := DeserialiseAsMemory (decodeLE s.1) s.2
      (Val.str r.1, r.2)
  | Ty.vecTy t, st =>
      let s := DeserialiseAsMemory sizeTBytes st
      let r := deserialiseValMany t (decodeLE s.1) s.2
      (Val.vec r.1, r.2)
  | Ty.arrTy t cap, st =>
      let s := DeserialiseAsMemory sizeTBytes st
      let stored := decodeLE s.1
      let r := deserialiseValMany t (if cap < stored then cap else stored) s.2
      (Val.arr r.1, r.2)
  | Ty.pairTy ta tb, st =>
      let a := deserialiseVal ta st
      let b := deserialiseVal tb a.2
      (Val.pairV a.1 b.1, b.2)
  | Ty.mapTy, st =>
      let s := DeserialiseAsMemory sizeTBytes st
      let r := deserialiseMapLoop (decodeLE s.1) [] s.2
      (Val.mapV r.1, r.2)
  | Ty.setTy, st =>
      let s := DeserialiseAsMemory sizeTBytes st
      let r := deserialiseSetLoop (decodeLE s.1) [] s.2
      (Val.setV r.1, r.2)
  | Ty.pqTy, st =>
      let s := DeserialiseAsMemory sizeTBytes st
      let r := deserialiseNats (decodeLE s.1) s.2
      (Val.pq r.1, r.2)
  | Ty.objTy ts, st =>
      let r := deserialiseValFields ts st
      (Val.obj r.1, r.2)
termination_by t _ => (sizeOf t, 0)

/-- Element loop of the sub-object container codecs: run the default functor
`count` times. -/
def deserialiseValMany : Ty → Nat → DState → List Val × DState
  | _, 0, st => ([], st)
  | t, n + 1, st =>
      let v := deserialiseVal t st
      let vs := deserialiseValMany t n v.2
      (v.1 :: vs.1, vs.2)
termination_by t n _ => (sizeOf t, n + 1)

/-- OnDeserialise of a hooked object: stream the fields in declared order. -/
def deserialiseValFields : List Ty → DState → List Val × DState
  | [], st => ([], st)
  | t :: ts, st =>
      let v := deserialiseVal t st
      let vs := deserialiseValFields ts v.2
      (v.1 :: vs.1, vs.2)
termination_by ts _ => (sizeOf ts, 0)

end

/-- Well-formedness of a value at a type skeleton: the value is a possible
runtime state of that C++ type on the 64-bit build. Leaf representations
have the static size; element counts fit in size_t; map entry lists are
strictly key-sorted with unique keys (std::map iteration order); set element
lists are strictly sorted (std::set iteration order); size_t elements fit in
8 bytes. -/
inductive wf : Val → Ty → Prop where
  | leaf : ∀ {bs : List Nat} {n : Nat}, bs.length = n → wf (Val.leaf bs) (Ty.leafTy n)
  | str : ∀ {cs : List Nat}, cs.length < 2 ^ 64 → wf (Val.str cs) Ty.strTy
  | vec : ∀ {es : List Val} {t : Ty}, es.length < 2 ^ 64 →
      (∀ v ∈ es, wf v t) → wf (Val.vec es) (Ty.vecTy t)
  | arr : ∀ {es : List Val} {t : Ty} {n : Nat}, es.length = n → n < 2 ^ 64 →
      (∀ v ∈ es, wf v t) → wf (Val.arr es) (Ty.arrTy t n)
  | pairV : ∀ {a b : Val} {ta tb : Ty}, wf a ta → wf b tb →
      wf (Val.pairV a b) (Ty.pairTy ta tb)
  | mapV : ∀ {en : List (Nat × Nat)}, en.length < 2 ^ 64 →
      List.Pairwise (fun p q => p.1 < q.1) en →
      (∀ p ∈ en, p.1 < 2 ^ 64 ∧ p.2 < 2 ^ 64) → wf (Val.mapV en) Ty.mapTy
  | setV : ∀ {xs : List Nat}, xs.length < 2 ^ 64 →
      List.Pairwise (· < ·) xs → (∀ x ∈ xs, x < 2 ^ 64) → wf (Val.setV xs) Ty.setTy
  | pq : ∀ {h : List Nat}, h.length < 2 ^ 64 → (∀ x ∈ h, x < 2 ^ 64) →
      wf (Val.pq h) Ty.pqTy
  | obj : ∀ {fs : List Val} {ts : List Ty}, List.Forall₂ wf fs ts →
      wf (Val.obj fs) (Ty.objTy ts)

/-! ### Canonical form of the written bytes -/

theorem serialiseNats_eq (xs : List Nat) (st : List Nat) :
    serialiseNats st xs = st ++ (xs.map encodeSize).flatten := by
  induction xs generalizing st with
  | nil => simp [serialiseNats]
  | cons x xs ih =>
      simp only [serialiseNats, List.foldl_cons, List.map_cons, List.flatten] at *
      rw [ih]
      simp [serialiseSizeT, SerialiseAsMemory]

theorem serialiseEntries_eq (en : List (Nat × Nat)) (st : List Nat) :
    serialiseEntries st en =
      st ++ (en.map (fun p => encodeSize p.1 ++ encodeSize p.2)).flatten := by
  induction en generalizing st with
  | nil => simp [serialiseEntries]
  | cons e en ih =>
      simp only [serialiseEntries, List.foldl_cons, List.map_cons, List.flatten] at *
      rw [ih]
      simp [serialiseSizeT, SerialiseAsMemory]

mutual

theorem serialiseVal_append : ∀ (v : Val) (st : List Nat),
    serialiseVal st v = st ++ serialiseVal [] v
  | Val.leaf bs, st => by simp [serialiseVal, SerialiseAsMemory]
  | Val.str cs, st => by simp [serialiseVal, SerialiseAsMemory]
  | Val.vec es, st => by
      rw [serialiseVal, serialiseVal, serialiseValList_append es,
        serialiseValList_append es (SerialiseAsMemory [] (encodeSize es.length))]
      simp [SerialiseAsMemory]
  | Val.arr es, st => by
      rw [serialiseVal, serialiseVal, serialiseValList_append es,
        serialiseValList_append es (SerialiseAsMemory [] (encodeSize es.length))]
      simp [SerialiseAsMemory]
  | Val.pairV a b, st => by
      rw [serialiseVal, serialiseVal, serialiseVal_append b,
        serialiseVal_append a, serialiseVal_append b (serialiseVal [] a),
        List.append_assoc]
  | Val.mapV en, st => by
      simp [serialiseVal, serialiseEntries_eq, SerialiseAsMemory]
  | Val.setV xs, st => by
      simp [serialiseVal, serialiseNats_eq, SerialiseAsMemory]
  | Val.pq h, st => by
      simp [serialiseVal, serialiseNats_eq, SerialiseAsMemory]
  | Val.obj fs, st => by
      rw [serialiseVal, serialiseVal, serialiseValList_append fs]

theorem serialiseValList_append : ∀ (vs : List Val) (st : List Nat),
    serialiseValList st vs = st ++ serialiseValList [] vs
  | [], st => by simp [serialiseValList]
  | v :: vs, st => by
      rw [serialiseValList, serialiseValList, serialiseValList_append vs,
        serialiseVal_append v, serialiseValList_append vs (serialiseVal [] v)]
      simp

end

theorem encVal_leaf (bs : List Nat) : serialiseVal [] (Val.leaf bs) = bs := by
  simp [serialiseVal, SerialiseAsMemory]

theorem encVal_str (cs : List Nat) :
    serialiseVal [] (Val.str cs) = encodeSize cs.length ++ cs := by
  simp [serialiseVal, SerialiseAsMemory]

theorem encVal_vec (es : List Val) :
    serialiseVal [] (Val.vec es) = encodeSize es.length ++ serialiseValList [] es := by
  rw [serialiseVal, serialiseValList_append es]
  simp [SerialiseAsMemory]

theorem encVal_arr (es : List Val) :
    serialiseVal [] (Val.arr es) = encodeSize es.length ++ serialiseValList [] es := by
  rw [serialiseVal, serialiseValList_append es]
  simp [SerialiseAsMemory]

theorem encVal_pair (a b : Val) :
    serialiseVal [] (Val.pairV a b) = serialiseVal [] a ++ serialiseVal [] b := by
  rw [serialiseVal, serialiseVal_append b]

theorem encVal_map (en : List (Nat × Nat)) :
    serialiseVal [] (Val.mapV en) =
      encodeSize en.length ++ (en.map (fun p => encodeSize p.1 ++ encodeSize p.2)).flatten := by
  simp [serialiseVal, serialiseEntries_eq, SerialiseAsMemory]

theorem encVal_set (xs : List Nat) :
    serialiseVal [] (Val.setV xs) =
      encodeSize xs.length ++ (xs.map encodeSize).flatten := by
  simp [serialiseVal, serialiseNats_eq, SerialiseAsMemory]

theorem encVal_pq (h : List Nat) :
    serialiseVal [] (Val.pq h) =
      encodeSize h.length ++ (h.map encodeSize).flatten := by
  simp [serialiseVal, serialiseNats_eq, SerialiseAsMemory]

theorem encVal_obj (fs : List Val) :
    serialiseVal [] (Val.obj fs) = serialiseValList [] fs := by
  rw [serialiseVal]

theorem encList_nil : serialiseValList [] ([] : List Val) = [] := rfl

theorem encList_cons (v : Val) (vs : List Val) :
    serialiseValList [] (v :: vs) = serialiseVal [] v ++ serialiseValList [] vs := by
  rw [serialiseValList, serialiseValList_append vs]

/-! ### Round-trip (Claim C2) -/

theorem readAtE (buf pre mid rest : List Nat) (n hd : Nat)
    (hbuf : buf = pre ++ (mid ++ rest)) (hn : mid.length = n)
    (hhd : hd = pre.length) :
    DeserialiseAsMemory n ⟨buf, hd⟩ = (mid, ⟨buf, hd + n⟩) := by
  subst hbuf; subst hhd
  exact DeserialiseAsMemory_at pre mid rest n hn

theorem nats_flatten_length (xs : List Nat) :
    ((xs.map encodeSize).flatten).length = sizeTBytes * xs.length := by
  induction xs with
  | nil => simp
  | cons x xs ih =>
      simp [ih, encodeSize_length]
      ring

theorem entries_flatten_length (en : List (Nat × Nat)) :
    ((en.map (fun p => encodeSize p.1 ++ encodeSize p.2)).flatten).length =
      2 * sizeTBytes * en.length := by
  induction en with
  | nil => simp
  | cons e en ih =>
      simp [ih, encodeSize_length]
      ring

theorem deserialiseNats_round (xs : List Nat) (hbound : ∀ x ∈ xs, x < 2 ^ 64) :
    ∀ (buf pre rest : List Nat) (hd : Nat),
      buf = pre ++ ((xs.map encodeSize).flatten ++ rest) → hd = pre.length →
      deserialiseNats xs.length ⟨buf, hd⟩ =
        (xs, ⟨buf, hd + sizeTBytes * xs.length⟩) := by
  induction xs with
  | nil =>
      intro buf pre rest hd hbuf hhd
      simp [deserialiseNats]
  | cons x xs ih =>
      intro buf pre rest hd hbuf hhd
      simp only [List.map_cons, List.flatten_cons, List.append_assoc] at hbuf
      simp only [List.length_cons, deserialiseNats, deserialiseSizeT]
      rw [readAtE buf pre (encodeSize x) ((xs.map encodeSize).flatten ++ rest)
        sizeTBytes hd hbuf (encodeSize_length x) hhd]
      simp only
      rw [decodeLE_encodeSize x (hbound x (List.mem_cons_self x xs))]
      rw [ih (fun y hy => hbound y (List.mem_cons_of_mem x hy)) buf
        (pre ++ encodeSize x) rest (hd + sizeTBytes)
        (by rw [hbuf]; simp [List.append_assoc])
        (by rw [hhd]; simp [List.length_append, encodeSize_length, Nat.add_assoc])]
      congr 2
      ring_nf

theorem mapEmplace_append (m : List (Nat × Nat)) (k v : Nat)
    (hgt : ∀ p ∈ m, p.1 < k) : mapEmplace m k v = m ++ [(k, v)] := by
  induction m with
  | nil => rfl
  | cons p m ih =>
      obtain ⟨k0, v0⟩ := p
      have hk0 : k0 < k := hgt (k0, v0) (List.mem_cons_self _ _)
      rw [mapEmplace, if_neg (by omega), if_pos hk0,
        ih (fun q hq => hgt q (List.mem_cons_of_mem _ hq))]
      simp

theorem foldl_mapEmplace (en : List (Nat × Nat)) :
    ∀ (m : List (Nat × Nat)),
      List.Pairwise (fun p q => p.1 < q.1) (m ++ en) →
      en.foldl (fun acc p => mapEmplace acc p.1 p.2) m = m ++ en := by
  induction en with
  | nil => intro m _; simp
  | cons e en ih =>
      intro m hsort
      have h1 : ∀ p ∈ m, p.1 < e.1 := by
        intro p hp
        exact (List.pairwise_append.mp hsort).2.2 p hp e (List.mem_cons_self _ _)
      rw [List.foldl_cons, mapEmplace_append m e.1 e.2 h1]
      have hresort : List.Pairwise (fun p q => p.1 < q.1) ((m ++ [e]) ++ en) := by
        simpa [List.append_assoc] using hsort
      rw [ih (m ++ [e]) hresort]
      simp

theorem setEmplace_append (s : List Nat) (x : Nat)
    (hgt : ∀ y ∈ s, y < x) : setEmplace s x = s ++ [x] := by
  induction s with
  | nil => rfl
  | cons y s ih =>
      have hy : y < x := hgt y (List.mem_cons_self _ _)
      rw [setEmplace, if_neg (by omega), if_pos hy,
        ih (fun z hz => hgt z (List.mem_cons_of_mem _ hz))]
      simp

theorem foldl_setEmplace (xs : List Nat) :
    ∀ (s : List Nat), List.Pairwise (· < ·) (s ++ xs) →
      xs.foldl setEmplace s = s ++ xs := by
  induction xs with
  | nil => intro s _; simp
  | cons x xs ih =>
      intro s hsort
      have h1 : ∀ y ∈ s, y < x := by
        intro y hy
        exact (List.pairwise_append.mp hsort).2.2 y hy x (List.mem_cons_self _ _)
      rw [List.foldl_cons, setEmplace_append s x h1]
      have hresort : List.Pairwise (· < ·) ((s ++ [x]) ++ xs) := by
        simpa [List.append_assoc] using hsort
      rw [ih (s ++ [x]) hresort]
      simp

theorem deserialiseMapLoop_round (en : List (Nat × Nat))
    (hbound : ∀ p ∈ en, p.1 < 2 ^ 64 ∧ p.2 < 2 ^ 64) :
    ∀ (acc : List (Nat × Nat)) (buf pre rest : List Nat) (hd : Nat),
      buf = pre ++ ((en.map (fun p => encodeSize p.1 ++ encodeSize p.2)).flatten ++ rest) →
      hd = pre.length →
      deserialiseMapLoop en.length acc ⟨buf, hd⟩ =
        (en.foldl (fun acc p => mapEmplace acc p.1 p.2) acc,
          ⟨buf, hd + 2 * sizeTBytes * en.length⟩) := by
  induction en with
  | nil =>
      intro acc buf pre rest hd hbuf hhd
      simp [deserialiseMapLoop]
  | cons e en ih =>
      intro acc buf pre rest hd hbuf hhd
      simp only [List.map_cons, List.flatten_cons, List.append_assoc] at hbuf
      simp only [List.length_cons, deserialiseMapLoop, deserialiseSizeT]
      rw [readAtE buf pre (encodeSize e.1)
        (encodeSize e.2 ++ ((en.map (fun p => encodeSize p.1 ++ encodeSize p.2)).flatten ++ rest))
        sizeTBytes hd hbuf (encodeSize_length e.1) hhd]
      simp only
      rw [decodeLE_encodeSize e.1 (hbound e (List.mem_cons_self e en)).1]
      rw [readAtE buf (pre ++ encodeSize e.1) (encodeSize e.2)
        ((en.map (fun p => encodeSize p.1 ++ encodeSize p.2)).flatten ++ rest)
        sizeTBytes (hd + sizeTBytes)
        (by rw [hbuf]; simp [List.append_assoc])
        (encodeSize_length e.2)
        (by rw [hhd]; simp [List.length_append, encodeSize_length, Nat.add_assoc])]
      simp only
      rw [decodeLE_encodeSize e.2 (hbound e (List.mem_cons_self e en)).2]
      rw [ih (fun p hp => hbound p (List.mem_cons_of_mem e hp))
        (mapEmplace acc e.1 e.2) buf (pre ++ encodeSize e.1 ++ encodeSize e.2)
        rest (hd + sizeTBytes + sizeTBytes)
        (by rw [hbuf]; simp [List.append_assoc])
        (by rw [hhd]; simp [List.length_append, encodeSize_length, Nat.add_assoc])]
      simp only [List.foldl_cons]
      congr 2
      ring

theorem deserialiseSetLoop_round (xs : List Nat)
    (hbound : ∀ x ∈ xs, x < 2 ^ 64) :
    ∀ (acc : List Nat) (buf pre rest : List Nat) (hd : Nat),
      buf = pre ++ ((xs.map encodeSize).flatten ++ rest) → hd = pre.length →
      deserialiseSetLoop xs.length acc ⟨buf, hd⟩ =
        (xs.foldl setEmplace acc, ⟨buf, hd + sizeTBytes * xs.length⟩) := by
  induction xs with
  | nil =>
      intro acc buf pre rest hd hbuf hhd
      simp [deserialiseSetLoop]
  | cons x xs ih =>
      intro acc buf pre rest hd hbuf hhd
      simp only [List.map_cons, List.flatten_cons, List.append_assoc] at hbuf
      simp only [List.length_cons, deserialiseSetLoop, deserialiseSizeT]
      rw [readAtE buf pre (encodeSize x) ((xs.map encodeSize).flatten ++ rest)
        sizeTBytes hd hbuf (encodeSize_length x) hhd]
      simp only
      rw [decodeLE_encodeSize x (hbound x (List.mem_cons_self x xs))]
      rw [ih (fun y hy => hbound y (List.mem_cons_of_mem x hy)) (setEmplace acc x)
        buf (pre ++ encodeSize x) rest (hd + sizeTBytes)
        (by rw [hbuf]; simp [List.append_assoc])
        (by rw [hhd]; simp [List.length_append, encodeSize_length, Nat.add_assoc])]
      simp only [List.foldl_cons]
      congr 2
      ring

mutual

theorem deserialiseVal_round (v : Val) (t : Ty) (hwf : wf v t) :
    ∀ (buf pre rest : List Nat) (hd : Nat),
      buf = pre ++ (serialiseVal [] v ++ rest) → hd = pre.length →
      deserialiseVal t ⟨buf, hd⟩ =
        (v, ⟨buf, hd + (serialiseVal [] v).length⟩) := by
  cases hwf with
  | leaf hlen =>
      rename_i bs n
      intro buf pre rest hd hbuf hhd
      rw [encVal_leaf] at hbuf
      simp only [deserialiseVal]
      rw [readAtE buf pre bs rest n hd hbuf hlen hhd]
      simp only [encVal_leaf]
      rw [hlen]
  | str hlen =>
      rename_i cs
      intro buf pre rest hd hbuf hhd
      rw [encVal_str, List.append_assoc] at hbuf
      simp only [deserialiseVal]
      rw [readAtE buf pre (encodeSize cs.length) (cs ++ rest) sizeTBytes hd hbuf
        (encodeSize_length _) hhd]
      simp only
      rw [decodeLE_encodeSize _ hlen]
      rw [readAtE buf (pre ++ encodeSize cs.length) cs rest cs.length
        (hd + sizeTBytes)
        (by rw [hbuf]; simp [List.append_assoc]) rfl
        (by rw [hhd]; simp [List.length_append, encodeSize_length, Nat.add_assoc])]
      simp only [encVal_str, List.length_append, encodeSize_length]
      congr 2
      omega
  | vec hlen hall =>
      rename_i es t
      intro buf pre rest hd hbuf hhd
      rw [encVal_vec, List.append_assoc] at hbuf
      simp only [deserialiseVal]
      rw [readAtE buf pre (encodeSize es.length) (serialiseValList [] es ++ rest)
        sizeTBytes hd hbuf (encodeSize_length _) hhd]
      simp only
      rw [decodeLE_encodeSize _ hlen]
      rw [deserialiseValMany_round es t hall buf (pre ++ encodeSize es.length) rest
        (hd + sizeTBytes)
        (by rw [hbuf]; simp [List.append_assoc])
        (by rw [hhd]; simp [List.length_append, encodeSize_length, Nat.add_assoc])]
      simp only [encVal_vec, List.length_append, encodeSize_length]
      congr 2
      omega
  | arr hlen hcap hall =>
      rename_i es t n
      intro buf pre rest hd hbuf hhd
      subst hlen
      rw [encVal_arr, List.append_assoc] at hbuf
      simp only [deserialiseVal]
      rw [readAtE buf pre (encodeSize es.length) (serialiseValList [] es ++ rest)
        sizeTBytes hd hbuf (encodeSize_length _) hhd]
      simp only
      rw [decodeLE_encodeSize _ hcap]
      rw [if_neg (lt_irrefl es.length)]
      rw [deserialiseValMany_round es t hall buf (pre ++ encodeSize es.length) rest
        (hd + sizeTBytes)
        (by rw [hbuf]; simp [List.append_assoc])
        (by rw [hhd]; simp [List.length_append, encodeSize_length, Nat.add_assoc])]
      simp only [encVal_arr, List.length_append, encodeSize_length]
      congr 2
      omega
  | pairV ha hb =>
      rename_i a b ta tb
      intro buf pre rest hd hbuf hhd
      rw [encVal_pair, List.append_assoc] at hbuf
      simp only [deserialiseVal]
      rw [deserialiseVal_round a ta ha buf pre (serialiseVal [] b ++ rest) hd hbuf hhd]
      simp only
      rw [deserialiseVal_round b tb hb buf (pre ++ serialiseVal [] a) rest
        (hd + (serialiseVal [] a).length)
        (by rw [hbuf]; simp [List.append_assoc])
        (by rw [hhd]; simp)]
      simp only [encVal_pair, List.length_append]
      congr 2
      omega
  | mapV hlen hsort hbound =>
      rename_i en
      intro buf pre rest hd hbuf hhd
      rw [encVal_map, List.append_assoc] at hbuf
      simp only [deserialiseVal]
      rw [readAtE buf pre (encodeSize en.length)
        ((en.map (fun p => encodeSize p.1 ++ encodeSize p.2)).flatten ++ rest)
        sizeTBytes hd hbuf (encodeSize_length _) hhd]
      simp only
      rw [decodeLE_encodeSize _ hlen]
      rw [deserialiseMapLoop_round en hbound [] buf (pre ++ encodeSize en.length)
        rest (hd + sizeTBytes)
        (by rw [hbuf]; simp [List.append_assoc])
        (by rw [hhd]; simp [List.length_append, encodeSize_length, Nat.add_assoc])]
      rw [foldl_mapEmplace en [] (by simpa using hsort)]
      simp only [List.nil_append, encVal_map, List.length_append, encodeSize_length,
        entries_flatten_length]
      congr 2
      ring
  | setV hlen hsort hbound =>
      rename_i xs
      intro buf pre rest hd hbuf hhd
      rw [encVal_set, List.append_assoc] at hbuf
      simp only [deserialiseVal]
      rw [readAtE buf pre (encodeSize xs.length) ((xs.map encodeSize).flatten ++ rest)
        sizeTBytes hd hbuf (encodeSize_length _) hhd]
      simp only
      rw [decodeLE_encodeSize _ hlen]
      rw [deserialiseSetLoop_round xs hbound [] buf (pre ++ encodeSize xs.length)
        rest (hd + sizeTBytes)
        (by rw [hbuf]; simp [List.append_assoc])
        (by rw [hhd]; simp [List.length_append, encodeSize_length, Nat.add_assoc])]
      rw [foldl_setEmplace xs [] (by simpa using hsort)]
      simp only [List.nil_append, encVal_set, List.length_append, encodeSize_length,
        nats_flatten_length]
      congr 2
      ring
  | pq hlen hbound =>
      rename_i h
      intro buf pre rest hd hbuf hhd
      rw [encVal_pq, List.append_assoc] at hbuf
      simp only [deserialiseVal]
      rw [readAtE buf pre (encodeSize h.length) ((h.map encodeSize).flatten ++ rest)
        sizeTBytes hd hbuf (encodeSize_length _) hhd]
      simp only
      rw [decodeLE_encodeSize _ hlen]
      rw [deserialiseNats_round h hbound buf (pre ++ encodeSize h.length) rest
        (hd + sizeTBytes)
        (by rw [hbuf]; simp [List.append_assoc])
        (by rw [hhd]; simp [List.length_append, encodeSize_length, Nat.add_assoc])]
      simp only [encVal_pq, List.length_append, encodeSize_length,
        nats_flatten_length]
      congr 2
      ring
  | obj hf =>
      rename_i fs ts
      intro buf pre rest hd hbuf hhd
      rw [encVal_obj] at hbuf
      simp only [deserialiseVal]
      rw [deserialiseValFields_round fs ts hf buf pre rest hd hbuf hhd]
      simp only [encVal_obj]
termination_by sizeOf v

theorem deserialiseValMany_round (es : List Val) (t : Ty) (hall : ∀ v ∈ es, wf v t) :
    ∀ (buf pre rest : List Nat) (hd : Nat),
      buf = pre ++ (serialiseValList [] es ++ rest) → hd = pre.length →
      deserialiseValMany t es.length ⟨buf, hd⟩ =
        (es, ⟨buf, hd + (serialiseValList [] es).length⟩) := by
  cases es with
  | nil =>
      intro buf pre rest hd hbuf hhd
      simp [deserialiseValMany, encList_nil]
  | cons v vs =>
      intro buf pre rest hd hbuf hhd
      rw [encList_cons, List.append_assoc] at hbuf
      simp only [List.length_cons, deserialiseValMany]
      rw [deserialiseVal_round v t (hall v (List.mem_cons_self v vs)) buf pre
        (serialiseValList [] vs ++ rest) hd hbuf hhd]
      simp only
      rw [deserialiseValMany_round vs t (fun u hu => hall u (List.mem_cons_of_mem v hu))
        buf (pre ++ serialiseVal [] v) rest (hd + (serialiseVal [] v).length)
        (by rw [hbuf]; simp [List.append_assoc])
        (by rw [hhd]; simp)]
      simp only [encList_cons, List.length_append]
      congr 2
      omega
termination_by sizeOf es

theorem deserialiseValFields_round (fs : List Val) (ts : List Ty)
    (hf : List.Forall₂ wf fs ts) :
    ∀ (buf pre rest : List Nat) (hd : Nat),
      buf = pre ++ (serialiseValList [] fs ++ rest) → hd = pre.length →
      deserialiseValFields ts ⟨buf, hd⟩ =
        (fs, ⟨buf, hd + (serialiseValList [] fs).length⟩) := by
  cases hf with
  | nil =>
      intro buf pre rest hd hbuf hhd
      simp [deserialiseValFields, encList_nil]
  | cons hw hrest =>
      rename_i v t vs ts'
      intro buf pre rest hd hbuf hhd
      rw [encList_cons, List.append_assoc] at hbuf
      simp only [deserialiseValFields]
      rw [deserialiseVal_round v t hw buf pre
        (serialiseValList [] vs ++ rest) hd hbuf hhd]
      simp only
      rw [deserialiseValFields_round vs ts' hrest buf (pre ++ serialiseVal [] v)
        rest (hd + (serialiseVal [] v).length)
        (by rw [hbuf]; simp [List.append_assoc])
        (by rw [hhd]; simp)]
      simp only [encList_cons, List.length_append]
      congr 2
      omega
termination_by sizeOf fs

end

/-- Claim C2: writing a value with a Serialiser and reading the buffer back
from the start with a Deserialiser into a fresh destination of the same type
reproduces the value, for every well-formed value of every supported shape,
consuming exactly the bytes written. -/
theorem write_read_round_trip (v : Val) (t : Ty) (hwf : wf v t) :
    deserialiseVal t ⟨serialiseVal [] v, 0⟩ =
      (v, ⟨serialiseVal [] v, GetBytesWritten (serialiseVal [] v)⟩) := by
  have hmain := deserialiseVal_round v t hwf (serialiseVal [] v) [] [] 0
    (by simp) rfl
  simpa [GetBytesWritten] using hmain

/-- A sample value exercising every shape at once: a hooked object whose
fields are a leaf, a string, a vector, a fixed array, a pair, a map, a set
and a priority queue. -/
def roundTripSample : Val :=
  Val.obj [Val.leaf [7, 1], Val.str [104, 105],
    Val.vec [Val.leaf [1], Val.leaf [2]], Val.arr [Val.leaf [3]],
    Val.pairV (Val.leaf [4]) (Val.leaf [5]),
    Val.mapV [(1, 10), (3, 30)], Val.setV [2, 9], Val.pq [9, 4, 6]]

/-- The static type of `roundTripSample`. -/
def roundTripSampleTy : Ty :=
  Ty.objTy [Ty.leafTy 2, Ty.strTy, Ty.vecTy (Ty.leafTy 1),
    Ty.arrTy (Ty.leafTy 1) 1, Ty.pairTy (Ty.leafTy 1) (Ty.leafTy 1),
    Ty.mapTy, Ty.setTy, Ty.pqTy]

theorem roundTripSample_wf : wf roundTripSample roundTripSampleTy := by
  refine wf.obj ?_
  refine List.Forall₂.cons (wf.leaf rfl) ?_
  refine List.Forall₂.cons (wf.str (by decide)) ?_
  refine List.Forall₂.cons (wf.vec (by decide) (by
    intro u hu
    simp only [List.mem_cons, List.not_mem_nil, or_false] at hu
    rcases hu with rfl | rfl
    · exact wf.leaf rfl
    · exact wf.leaf rfl)) ?_
  refine List.Forall₂.cons (wf.arr rfl (by decide) (by
    intro u hu
    simp only [List.mem_cons, List.not_mem_nil, or_false] at hu
    rcases hu with rfl
    exact wf.leaf rfl)) ?_
  refine List.Forall₂.cons (wf.pairV (wf.leaf rfl) (wf.leaf rfl)) ?_
  refine List.Forall₂.cons (wf.mapV (by decide) (by decide) (by decide)) ?_
  refine List.Forall₂.cons (wf.setV (by decide) (by decide) (by decide)) ?_
  refine List.Forall₂.cons (wf.pq (by decide) (by decide)) ?_
  exact List.Forall₂.nil

/-- Claim C2 witness: the round trip instantiated at `roundTripSample`. -/
theorem write_read_round_trip_witness :
    wf roundTripSample roundTripSampleTy ∧
      deserialiseVal roundTripSampleTy ⟨serialiseVal [] roundTripSample, 0⟩ =
        (roundTripSample,
          ⟨serialiseVal [] roundTripSample,
            GetBytesWritten (serialiseVal [] roundTripSample)⟩) :=
  ⟨roundTripSample_wf,
    write_read_round_trip roundTripSample roundTripSampleTy roundTripSample_wf⟩

/-!
## Fixed-size container read path over a live destination (Claim C3)

Deserialiser::DeserialiseAsContainer( T(&)[ N ] ) and the std::array
overload are textually identical: read the stored count, clamp it with
`Size = N < Size ? N : Size`, then run the element functor into
o_Container[ i ] for i < Size. Nothing skips the encoded bytes of the
remaining (stored - Size) elements. We model elements of a fixed byte width
read by the default functor, and the destination as the list of its N
slots' contents.
-/

/-- The clamped element loop: read `n` elements of `eltSize` bytes each. -/
def readFixedElems (eltSize : Nat) : Nat → DState → List (List Nat) × DState
  | 0, st => ([], st)
  | n + 1, st =>
      let r := DeserialiseAsMemory eltSize st
      let rs := readFixedElems eltSize n r.2
      (r.1 :: rs.1, rs.2)

/-- The fixed-size array codec over a live N-slot destination: slots below
the clamped count are overwritten by decoded elements, the rest are left
with their prior contents. -/
def DeserialiseAsContainerArray (eltSize N : Nat) (dest : List (List Nat))
    (st : DState) : List (List Nat) × DState :=
  let s := DeserialiseAsMemory sizeTBytes st
  let stored := decodeLE s.1
  let size := if N < stored then N else stored
  let r := readFixedElems eltSize size s.2
  (r.1 ++ dest.drop size, r.2)

theorem readFixedElems_state (eltSize : Nat) :
    ∀ (n : Nat) (st : DState),
      (readFixedElems eltSize n st).2 = ⟨st.data, st.head + n * eltSize⟩ ∧
      (readFixedElems eltSize n st).1.length = n := by
  intro n
  induction n with
  | zero => intro st; simp [readFixedElems]
  | succ n ih =>
      intro st
      simp only [readFixedElems, DeserialiseAsMemory]
      constructor
      · rw [(ih _).1]
        congr 1
        ring
      · simp [(ih _).2]

theorem clamp_eq_min (a b : Nat) : (if a < b then a else b) = min a b := by
  rcases Nat.lt_or_ge a b with h | h
  · simp [h, Nat.min_def, Nat.le_of_lt h]
  · rcases Nat.eq_or_lt_of_le h with h2 | h2
    · simp [h2, Nat.min_def]
    · simp [Nat.min_def, Nat.not_lt.mpr h, Nat.not_le.mpr h2]

/-- Claim C3: the fixed-size container read consumes the count header plus
exactly min(N, stored) encoded elements - the head is not advanced past the
remaining (stored - N) elements when stored > N - and the N-slot
destination keeps its prior contents in every slot at or beyond
min(N, stored). -/
theorem fixed_array_read_truncation (eltSize N stored : Nat)
    (dest : List (List Nat)) (st : DState) (hN : dest.length = N)
    (hstored : decodeLE ((st.data.drop st.head).take sizeTBytes) = stored) :
    GetBytesRead (DeserialiseAsContainerArray eltSize N dest st).2 =
      GetBytesRead st + sizeTBytes + min N stored * eltSize ∧
    (DeserialiseAsContainerArray eltSize N dest st).2.data = st.data ∧
    (DeserialiseAsContainerArray eltSize N dest st).1.length = N ∧
    (DeserialiseAsContainerArray eltSize N dest st).1.drop (min N stored) =
      dest.drop (min N stored) := by
  subst hstored
  have hsize := clamp_eq_min N (decodeLE ((st.data.drop st.head).take sizeTBytes))
  have hread := readFixedElems_state eltSize
    (min N (decodeLE ((st.data.drop st.head).take sizeTBytes)))
    ⟨st.data, st.head + sizeTBytes⟩
  have hle : min N (decodeLE ((st.data.drop st.head).take sizeTBytes)) ≤ dest.length := by
    rw [hN]; exact Nat.min_le_left _ _
  simp only [DeserialiseAsContainerArray, DeserialiseAsMemory, hsize]
  refine ⟨?_, ?_, ?_, ?_⟩
  · rw [GetBytesRead, GetBytesRead, hread.1]
  · rw [hread.1]
  · rw [List.length_append, hread.2, List.length_drop, hN]
    have := Nat.min_le_left N (decodeLE ((st.data.drop st.head).take sizeTBytes))
    omega
  · rw [List.drop_append_of_le_length (le_of_eq hread.2.symm)]
    simp [hread.2]

/-- Claim C3 witness: a 2-capacity destination against a stored count of 5
consumes only the header plus 2 one-byte elements (head lands at 10, short
of the 3 remaining encoded elements), and a 3-capacity destination against a
stored count of 1 keeps its last two slots untouched. -/
theorem fixed_array_read_truncation_witness :
    GetBytesRead (DeserialiseAsContainerArray 1 2 [[9], [9]]
        ⟨encodeSize 5 ++ [1, 2, 3, 4, 5], 0⟩).2 = 10 ∧
    (DeserialiseAsContainerArray 1 3 [[7], [8], [9]]
        ⟨encodeSize 1 ++ [55], 0⟩).1.drop 1 = [[8], [9]] := by
  have hA := fixed_array_read_truncation 1 2 5 [[9], [9]]
    ⟨encodeSize 5 ++ [1, 2, 3, 4, 5], 0⟩ rfl (by decide)
  have hB := fixed_array_read_truncation 1 3 1 [[7], [8], [9]]
    ⟨encodeSize 1 ++ [55], 0⟩ rfl (by decide)
  constructor
  · rw [hA.1]
    rfl
  · have h2 := hB.2.2.2
    norm_num at h2
    simpa [List.drop_one] using h2

/-!
## Sizer frame property (Claim C5)

The Sizer's whole state is the running total m_Size; there is no buffer
pointer in the class at all. The only codec that touches the measured value
is the priority_queue overload, which move-constructs the helper from the
queue, sizes the helper's heap vector, and move-assigns the helper back, so
the queue's final contents are its original contents.
-/

/-- Sizer::AddSizeOfContainer( const std::priority_queue& ): move the queue
into the helper, size the exposed heap vector, move the helper back.
Returns the new tally together with the queue's contents afterwards. -/
def AddSizeOfContainerPQ (sz : Nat) (q : List Nat) : Nat × List Nat :=
  let heap := q
  let sz2 := heap.foldl sizeOfSizeT (AddSizeOfMemory sz sizeTBytes)
  (sz2, heap)

/-- Claim C5: measuring only accumulates - the tally after measuring any
value is the starting tally plus a value-determined amount (so a fresh-Sizer
measure is recoverable from any run) - and the priority_queue measure
returns the adapter holding exactly its original elements; the Sizer state
carries no buffer, so no buffer is touched. -/
theorem sizer_accumulate_only :
    ∀ (v : Val) (sz : Nat) (q : List Nat),
      sizeOfVal sz v = sz + sizeOfVal 0 v ∧
      (AddSizeOfContainerPQ sz q).2 = q ∧
      (AddSizeOfContainerPQ sz q).1 = sz + sizeTBytes + sizeTBytes * q.length := by
  intro v sz q
  refine ⟨sizeOfVal_add v sz, rfl, ?_⟩
  rw [AddSizeOfContainerPQ]
  simp only [foldl_sizeOfSizeT, AddSizeOfMemory]

/-!
## Adapter unwrap / rewrap under exceptions (Claim C6)

The priority_queue codecs read:
    Helper( std::move( queue ) );        -- queue left moved-from
    body over Helper.Heap;               -- element functor may throw
    queue = std::move( Helper );         -- restoring move assignment
with no try/catch and no guard object: when the body throws, the restoring
assignment is never reached and the caller's queue stays moved-from (a
moved-from std::priority_queue's vector is empty). We model the element
functor as fallible (Except) and record, besides the outcome and the final
queue, whether the restoring assignment ran.
-/

/-- Did an Except computation succeed? -/
def exceptSucceeded {ε α : Type} : Except ε α → Bool
  | Except.ok _ => true
  | Except.error _ => false

/-- The Serialiser element loop with a fallible functor: a thrown exception
propagates out of the loop immediately. -/
def serialiseElemsExc {ε α : Type} (f : List Nat → α → Except ε (List Nat)) :
    List α → List Nat → Except ε (List Nat)
  | [], st => Except.ok st
  | x :: xs, st =>
      match f st x with
      | Except.ok st2 => serialiseElemsExc f xs st2
      | Except.error e => Except.error e

/-- Serialiser::SerialiseAsContainer( const std::priority_queue& ) with a
fallible element functor: returns the outcome, the caller's queue after the
call (or after the propagating exception), and whether the restoring move
assignment ran. -/
def SerialiseAsContainerPQExc {ε : Type} (f : List Nat → Nat → Except ε (List Nat))
    (st : List Nat) (q : List Nat) : Except ε (List Nat) × List Nat × Bool :=
  match serialiseElemsExc f q (SerialiseAsMemory st (encodeSize q.length)) with
  | Except.ok st2 => (Except.ok st2, q, true)
  | Except.error e => (Except.error e, [], false)

/-- The Deserialiser element loop of the heap vector with a fallible
functor. -/
def readNatsExc {ε : Type} (g : DState → Except ε (Nat × DState)) :
    Nat → DState → Except ε (List Nat × DState)
  | 0, st => Except.ok ([], st)
  | n + 1, st =>
      match g st with
      | Except.ok r =>
          match readNatsExc g n r.2 with
          | Except.ok rs => Except.ok (r.1 :: rs.1, rs.2)
          | Except.error e => Except.error e
      | Except.error e => Except.error e

/-- Deserialiser::DeserialiseAsContainer( std::priority_queue& ) with a
fallible element functor: on success the queue receives the decoded heap;
on a propagating exception the restoring assignment is skipped. -/
def DeserialiseAsContainerPQExc {ε : Type} (g : DState → Except ε (Nat × DState))
    (st : DState) : Except ε DState × List Nat × Bool :=
  let s := DeserialiseAsMemory sizeTBytes st
  match readNatsExc g (decodeLE s.1) s.2 with
  | Except.ok r => (Except.ok r.2, r.1, true)
  | Except.error e => (Except.error e, [], false)

/-- Claim C6 counterexample: an element functor that throws on the first
element makes the priority_queue write path propagate the exception with the
restore step skipped: the adapter is left moved-from (empty), not restored
to its original contents. -/
theorem adapter_exception_no_restore_counterexample :
    (SerialiseAsContainerPQExc (fun _ _ => Except.error ()) [] [5]).2.1 ≠ [5] ∧
    (SerialiseAsContainerPQExc (fun _ _ => Except.error ()) [] [5]).2.2 = false := by
  decide

/-- Claim C6 amended: the restore step runs exactly when the element
traversal completes without an exception; on success the write path returns
the queue to its original contents (and an infallible functor always
restores, matching the pure codec), while a propagating exception skips the
restore on the write and read paths alike, leaving the adapter moved-from. -/
theorem adapter_restore_iff_no_exception {ε : Type}
    (f : List Nat → Nat → Except ε (List Nat)) (st : List Nat) (q : List Nat)
    (g : DState → Except ε (Nat × DState)) (dst : DState) :
    (SerialiseAsContainerPQExc f st q).2.2 =
      exceptSucceeded (serialiseElemsExc f q (SerialiseAsMemory st (encodeSize q.length))) ∧
    (SerialiseAsContainerPQExc f st q).2.1 =
      (if exceptSucceeded (serialiseElemsExc f q (SerialiseAsMemory st (encodeSize q.length)))
        then q else []) ∧
    (DeserialiseAsContainerPQExc g dst).2.2 =
      exceptSucceeded (readNatsExc g (decodeLE (DeserialiseAsMemory sizeTBytes dst).1)
        (DeserialiseAsMemory sizeTBytes dst).2) ∧
    @SerialiseAsContainerPQExc ε (fun s x => Except.ok (serialiseSizeT s x)) st q =
      (Except.ok (serialiseVal st (Val.pq q)), q, true) := by
  refine ⟨?_, ?_, ?_, ?_⟩
  · rcases h : serialiseElemsExc f q (SerialiseAsMemory st (encodeSize q.length)) with
      st2 | e <;> simp [SerialiseAsContainerPQExc, h, exceptSucceeded]
  · rcases h : serialiseElemsExc f q (SerialiseAsMemory st (encodeSize q.length)) with
      st2 | e <;> simp [SerialiseAsContainerPQExc, h, exceptSucceeded]
  · rcases h : readNatsExc g (decodeLE ((dst.data.drop dst.head).take sizeTBytes))
        ⟨dst.data, dst.head + sizeTBytes⟩ with r | e <;>
      simp [DeserialiseAsContainerPQExc, DeserialiseAsMemory, h, exceptSucceeded]
  · have hok : ∀ (xs : List Nat) (s : List Nat),
        serialiseElemsExc (ε := ε) (fun s x => Except.ok (serialiseSizeT s x)) xs s =
          Except.ok (serialiseNats s xs) := by
      intro xs
      induction xs with
      | nil => intro s; simp [serialiseElemsExc, serialiseNats]
      | cons x xs ih => intro s; simp [serialiseElemsExc, serialiseNats] at *; exact ih _
    rw [SerialiseAsContainerPQExc, hok]
    rfl

/-!
## Associative reconstruction and duplicate keys (Claim C7)

The map / set read loops emplace each decoded entry in stored order;
std::map::emplace / std::set::emplace return without inserting when the key
is already present, so a colliding entry leaves the container unchanged and
the earlier entry wins, with no error channel anywhere in the loop.
-/

theorem mapEmplace_mem (m : List (Nat × Nat)) (k v : Nat)
    (hsort : List.Pairwise (fun p q => p.1 < q.1) m)
    (hk : k ∈ m.map Prod.fst) : mapEmplace m k v = m := by
  induction m with
  | nil => simp at hk
  | cons p m ih =>
      obtain ⟨k0, v0⟩ := p
      simp only [List.map_cons, List.mem_cons] at hk
      rw [List.pairwise_cons] at hsort
      rcases hk with hEq | hk
      · subst hEq
        rw [mapEmplace, if_neg (lt_irrefl _), if_neg (lt_irrefl _)]
      · have hk0k : k0 < k := by
          obtain ⟨q, hq, rfl⟩ := List.mem_map.mp hk
          exact hsort.1 q hq
        rw [mapEmplace, if_neg (by omega), if_pos hk0k, ih hsort.2 hk]

theorem setEmplace_mem (s : List Nat) (x : Nat)
    (hsort : List.Pairwise (· < ·) s) (hx : x ∈ s) : setEmplace s x = s := by
  induction s with
  | nil => simp at hx
  | cons y s ih =>
      rw [List.pairwise_cons] at hsort
      rcases List.mem_cons.mp hx with hEq | hx
      · subst hEq
        rw [setEmplace, if_neg (lt_irrefl _), if_neg (lt_irrefl _)]
      · have hyx : y < x := hsort.1 x hx
        rw [setEmplace, if_neg (by omega), if_pos hyx, ih hsort.2 hx]

/-- Claim C7: the unique-key associative read loops rebuild the container by
emplacing every decoded entry in stored order (whatever the buffer holds,
duplicates included), and emplacing an entry whose key is already present
leaves the container unchanged - the earlier entry is kept and no error
surfaces; likewise for unique-element sets. -/
theorem associative_read_emplace_in_order (en : List (Nat × Nat)) (xs : List Nat)
    (hen : ∀ p ∈ en, p.1 < 2 ^ 64 ∧ p.2 < 2 ^ 64) (hxs : ∀ x ∈ xs, x < 2 ^ 64)
    (rest restS : List Nat) :
    deserialiseMapLoop en.length []
        ⟨(en.map (fun p => encodeSize p.1 ++ encodeSize p.2)).flatten ++ rest, 0⟩ =
      (en.foldl (fun m p => mapEmplace m p.1 p.2) [],
        ⟨(en.map (fun p => encodeSize p.1 ++ encodeSize p.2)).flatten ++ rest,
          2 * sizeTBytes * en.length⟩) ∧
    deserialiseSetLoop xs.length [] ⟨(xs.map encodeSize).flatten ++ restS, 0⟩ =
      (xs.foldl setEmplace [],
        ⟨(xs.map encodeSize).flatten ++ restS, sizeTBytes * xs.length⟩) ∧
    (∀ (m : List (Nat × Nat)) (k v : Nat),
      List.Pairwise (fun p q => p.1 < q.1) m → k ∈ m.map Prod.fst →
        mapEmplace m k v = m) ∧
    (∀ (s : List Nat) (x : Nat),
      List.Pairwise (· < ·) s → x ∈ s → setEmplace s x = s) := by
  refine ⟨?_, ?_, mapEmplace_mem, setEmplace_mem⟩
  · have h := deserialiseMapLoop_round en hen []
      ((en.map (fun p => encodeSize p.1 ++ encodeSize p.2)).flatten ++ rest)
      [] rest 0 (by simp) rfl
    simpa using h
  · have h := deserialiseSetLoop_round xs hxs []
      ((xs.map encodeSize).flatten ++ restS) [] restS 0 (by simp) rfl
    simpa using h

/-- Claim C7 witness: a buffer holding the entries (1, 10) then (1, 20)
reads back as the one-entry map keeping (1, 10); a buffer holding 3 twice
reads back as the one-element set keeping the first 3. -/
theorem associative_read_emplace_witness :
    deserialiseMapLoop ([(1, 10), (1, 20)] : List (Nat × Nat)).length []
        ⟨(([(1, 10), (1, 20)] : List (Nat × Nat)).map
            (fun p => encodeSize p.1 ++ encodeSize p.2)).flatten ++ [], 0⟩ =
      ([(1, 10)],
        ⟨(([(1, 10), (1, 20)] : List (Nat × Nat)).map
            (fun p => encodeSize p.1 ++ encodeSize p.2)).flatten ++ [],
          2 * sizeTBytes * ([(1, 10), (1, 20)] : List (Nat × Nat)).length⟩) ∧
    deserialiseSetLoop ([3, 3] : List Nat).length []
        ⟨(([3, 3] : List Nat).map encodeSize).flatten ++ [], 0⟩ =
      ([3], ⟨(([3, 3] : List Nat).map encodeSize).flatten ++ [],
        sizeTBytes * ([3, 3] : List Nat).length⟩) := by
  have h := associative_read_emplace_in_order [(1, 10), (1, 20)] [3, 3]
    (by decide) (by decide) [] []
  refine ⟨?_, ?_⟩
  · rw [h.1]
    decide
  · rw [h.2.1]
    decide

/-!
## Forward-only cursors (Claim C9)

The Serialiser only ever appends at its head (every codec bottoms out in
SerialiseAsMemory), the Deserialiser only ever adds to its head offset and
never touches m_Data, and the Sizer tally only grows.
-/

theorem deserialiseNats_mono (n : Nat) :
    ∀ (st : DState), (deserialiseNats n st).2.data = st.data ∧
      st.head ≤ (deserialiseNats n st).2.head := by
  induction n with
  | zero => intro st; simp [deserialiseNats]
  | succ n ih =>
      intro st
      have h := ih ⟨st.data, st.head + sizeTBytes⟩
      simp only [deserialiseNats, deserialiseSizeT, DeserialiseAsMemory]
      refine ⟨by simpa using h.1, ?_⟩
      have h2 := h.2
      simp only at h2
      omega

theorem deserialiseMapLoop_mono (n : Nat) :
    ∀ (acc : List (Nat × Nat)) (st : DState),
      (deserialiseMapLoop n acc st).2.data = st.data ∧
      st.head ≤ (deserialiseMapLoop n acc st).2.head := by
  induction n with
  | zero => intro acc st; simp [deserialiseMapLoop]
  | succ n ih =>
      intro acc st
      simp only [deserialiseMapLoop, deserialiseSizeT, DeserialiseAsMemory]
      have h := ih (mapEmplace acc
          (decodeLE ((st.data.drop st.head).take sizeTBytes))
          (decodeLE ((st.data.drop (st.head + sizeTBytes)).take sizeTBytes)))
        ⟨st.data, st.head + sizeTBytes + sizeTBytes⟩
      refine ⟨by simpa using h.1, ?_⟩
      have h2 := h.2
      simp only at h2
      omega

theorem deserialiseSetLoop_mono (n : Nat) :
    ∀ (acc : List Nat) (st : DState),
      (deserialiseSetLoop n acc st).2.data = st.data ∧
      st.head ≤ (deserialiseSetLoop n acc st).2.head := by
  induction n with
  | zero => intro acc st; simp [deserialiseSetLoop]
  | succ n ih =>
      intro acc st
      simp only [deserialiseSetLoop, deserialiseSizeT, DeserialiseAsMemory]
      have h := ih (setEmplace acc (decodeLE ((st.data.drop st.head).take sizeTBytes)))
        ⟨st.data, st.head + sizeTBytes⟩
      refine ⟨by simpa using h.1, ?_⟩
      have h2 := h.2
      simp only at h2
      omega

mutual

theorem deserialiseVal_mono : ∀ (t : Ty) (st : DState),
    (deserialiseVal t st).2.data = st.data ∧
    st.head ≤ (deserialiseVal t st).2.head
  | Ty.leafTy n, st => by
      simp [deserialiseVal, DeserialiseAsMemory]
  | Ty.strTy, st => by
      simp [deserialiseVal, DeserialiseAsMemory]
      omega
  | Ty.vecTy t, st => by
      simp only [deserialiseVal, DeserialiseAsMemory]
      have h := deserialiseValMany_mono t
        (decodeLE ((st.data.drop st.head).take sizeTBytes))
        ⟨st.data, st.head + sizeTBytes⟩
      refine ⟨by simpa using h.1, ?_⟩
      have h2 := h.2
      simp only at h2
      omega
  | Ty.arrTy t cap, st => by
      simp only [deserialiseVal, DeserialiseAsMemory]
      have h := deserialiseValMany_mono t
        (if cap < decodeLE ((st.data.drop st.head).take sizeTBytes) then cap
          else decodeLE ((st.data.drop st.head).take sizeTBytes))
        ⟨st.data, st.head + sizeTBytes⟩
      refine ⟨by simpa using h.1, ?_⟩
      have h2 := h.2
      simp only at h2
      omega
  | Ty.pairTy ta tb, st => by
      simp only [deserialiseVal]
      have ha := deserialiseVal_mono ta st
      have hb := deserialiseVal_mono tb (deserialiseVal ta st).2
      exact ⟨by rw [hb.1, ha.1], le_trans ha.2 hb.2⟩
  | Ty.mapTy, st => by
      simp only [deserialiseVal, DeserialiseAsMemory]
      have h := deserialiseMapLoop_mono
        (decodeLE ((st.data.drop st.head).take sizeTBytes)) []
        ⟨st.data, st.head + sizeTBytes⟩
      refine ⟨by simpa using h.1, ?_⟩
      have h2 := h.2
      simp only at h2
      omega
  | Ty.setTy, st => by
      simp only [deserialiseVal, DeserialiseAsMemory]
      have h := deserialiseSetLoop_mono
        (decodeLE ((st.data.drop st.head).take sizeTBytes)) []
        ⟨st.data, st.head + sizeTBytes⟩
      refine ⟨by simpa using h.1, ?_⟩
      have h2 := h.2
      simp only at h2
      omega
  | Ty.pqTy, st => by
      simp only [deserialiseVal, DeserialiseAsMemory]
      have h := deserialiseNats_mono
        (decodeLE ((st.data.drop st.head).take sizeTBytes))
        ⟨st.data, st.head + sizeTBytes⟩
      refine ⟨by simpa using h.1, ?_⟩
      have h2 := h.2
      simp only at h2
      omega
  | Ty.objTy ts, st => by
      simp only [deserialiseVal]
      exact deserialiseValFields_mono ts st
termination_by t _ => (sizeOf t, 0)

theorem deserialiseValMany_mono : ∀ (t : Ty) (n : Nat) (st : DState),
    (deserialiseValMany t n st).2.data = st.data ∧
    st.head ≤ (deserialiseValMany t n st).2.head
  | _, 0, st => by simp [deserialiseValMany]
  | t, n + 1, st => by
      simp only [deserialiseValMany]
      have hv := deserialiseVal_mono t st
      have hs := deserialiseValMany_mono t n (deserialiseVal t st).2
      exact ⟨by rw [hs.1, hv.1], le_trans hv.2 hs.2⟩
termination_by t n _ => (sizeOf t, n + 1)

theorem deserialiseValFields_mono : ∀ (ts : List Ty) (st : DState),
    (deserialiseValFields ts st).2.data = st.data ∧
    st.head ≤ (deserialiseValFields ts st).2.head
  | [], st => by simp [deserialiseValFields]
  | t :: ts, st => by
      simp only [deserialiseValFields]
      have hv := deserialiseVal_mono t st
      have hs := deserialiseValFields_mono ts (deserialiseVal t st).2
      exact ⟨by rw [hs.1, hv.1], le_trans hv.2 hs.2⟩
termination_by ts _ => (sizeOf ts, 0)

end

/-- Claim C9: each context is strictly forward-moving. A Serialiser write
leaves the prior buffer contents as an untouched initial segment and can
only grow the bytes-written count; a Deserialiser read never changes the
buffer start or contents and can only grow the bytes-read count; a Sizer
measure can only grow the tally. -/
theorem cursor_forward_only :
    ∀ (v : Val) (t : Ty) (st : List Nat) (dst : DState) (sz : Nat),
      serialiseVal st v = st ++ serialiseVal [] v ∧
      GetBytesWritten st ≤ GetBytesWritten (serialiseVal st v) ∧
      (deserialiseVal t dst).2.data = dst.data ∧
      GetBytesRead dst ≤ GetBytesRead (deserialiseVal t dst).2 ∧
      sz ≤ sizeOfVal sz v := by
  intro v t st dst sz
  refine ⟨serialiseVal_append v st, ?_, (deserialiseVal_mono t dst).1,
    (deserialiseVal_mono t dst).2, ?_⟩
  · rw [GetBytesWritten, GetBytesWritten, serialiseVal_append v st]
    simp
  · rw [sizeOfVal_add v sz]
    omega

/-!
## list / forward_list reads into a non-empty destination (Claim C10)

Deserialiser::DeserialiseAsContainer( std::list& ) reads the stored count
and then emplace_back()s a fresh element and reads into it, count times: it
never clears the destination, so the decoded elements land after whatever
was already there. The forward_list overload keeps a cursor Begin that
starts at before_begin() and, for each decoded element, emplace_after()s at
the cursor and advances it: the decoded elements land at the front, in
stored order, before the prior contents.
-/

/-- The pure sequence a generic element reader produces: `n` consecutive
reads from the given state. -/
def readSeq {α : Type} (g : DState → α × DState) : Nat → DState → List α × DState
  | 0, st => ([], st)
  | n + 1, st =>
      let r := g st
      let rs := readSeq g n r.2
      (r.1 :: rs.1, rs.2)

/-- The std::list element loop: emplace_back then read into the new back. -/
def deserialiseListLoop {α : Type} (g : DState → α × DState) :
    Nat → List α → DState → List α × DState
  | 0, l, st => (l, st)
  | n + 1, l, st =>
      let r := g st
      deserialiseListLoop g n (l ++ [r.1]) r.2

/-- Deserialiser::DeserialiseAsContainer( std::list& ). -/
def deserialiseListInto {α : Type} (g : DState → α × DState) (dest : List α)
    (st : DState) : List α × DState :=
  let s := DeserialiseAsMemory sizeTBytes st
  deserialiseListLoop g (decodeLE s.1) dest s.2

/-- The std::forward_list element loop: emplace_after the cursor position,
then advance the cursor. -/
def deserialiseFListLoop {α : Type} (g : DState → α × DState) :
    Nat → Nat → List α → DState → List α × DState
  | 0, _, l, st => (l, st)
  | n + 1, idx, l, st =>
      let r := g st
      deserialiseFListLoop g n (idx + 1) (l.insertIdx idx r.1) r.2

/-- Deserialiser::DeserialiseAsContainer( std::forward_list& ): the cursor
starts before the first element. -/
def deserialiseFListInto {α : Type} (g : DState → α × DState) (dest : List α)
    (st : DState) : List α × DState :=
  let s := DeserialiseAsMemory sizeTBytes st
  deserialiseFListLoop g (decodeLE s.1) 0 dest s.2

theorem insertIdx_at_length {α : Type} (pre dest : List α) (x : α) :
    (pre ++ dest).insertIdx pre.length x = pre ++ x :: dest := by
  induction pre with
  | nil => simp
  | cons a pre ih => simp [List.insertIdx_succ_cons, ih]

theorem deserialiseListLoop_eq {α : Type} (g : DState → α × DState) (n : Nat) :
    ∀ (l : List α) (st : DState),
      deserialiseListLoop g n l st =
        (l ++ (readSeq g n st).1, (readSeq g n st).2) := by
  induction n with
  | zero => intro l st; simp [deserialiseListLoop, readSeq]
  | succ n ih =>
      intro l st
      simp only [deserialiseListLoop, readSeq, ih]
      simp

theorem deserialiseFListLoop_eq {α : Type} (g : DState → α × DState) (n : Nat) :
    ∀ (pre dest : List α) (st : DState),
      deserialiseFListLoop g n pre.length (pre ++ dest) st =
        (pre ++ (readSeq g n st).1 ++ dest, (readSeq g n st).2) := by
  induction n with
  | zero => intro pre dest st; simp [deserialiseFListLoop, readSeq]
  | succ n ih =>
      intro pre dest st
      simp only [deserialiseFListLoop, readSeq]
      rw [insertIdx_at_length]
      have h := ih (pre ++ [(g st).1]) dest (g st).2
      simp only [List.append_assoc, List.singleton_append, List.length_append,
        List.length_singleton] at h
      simpa [List.append_assoc] using h

/-- Claim C10: reading a std::list does not clear a non-empty destination -
the k decoded elements are appended after the existing contents - and
reading a std::forward_list inserts the k decoded elements at the front in
stored order, before the existing contents; both consume the same bytes a
fresh-destination read would. -/
theorem list_read_preserves_destination {α : Type} (g : DState → α × DState)
    (dest : List α) (st : DState) :
    deserialiseListInto g dest st =
      (dest ++ (readSeq g (decodeLE ((st.data.drop st.head).take sizeTBytes))
          ⟨st.data, st.head + sizeTBytes⟩).1,
        (readSeq g (decodeLE ((st.data.drop st.head).take sizeTBytes))
          ⟨st.data, st.head + sizeTBytes⟩).2) ∧
    deserialiseFListInto g dest st =
      ((readSeq g (decodeLE ((st.data.drop st.head).take sizeTBytes))
          ⟨st.data, st.head + sizeTBytes⟩).1 ++ dest,
        (readSeq g (decodeLE ((st.data.drop st.head).take sizeTBytes))
          ⟨st.data, st.head + sizeTBytes⟩).2) := by
  constructor
  · simp only [deserialiseListInto, DeserialiseAsMemory]
    rw [deserialiseListLoop_eq]
  · simp only [deserialiseFListInto, DeserialiseAsMemory]
    have h := deserialiseFListLoop_eq g
      (decodeLE ((st.data.drop st.head).take sizeTBytes)) [] dest
      ⟨st.data, st.head + sizeTBytes⟩
    simpa using h
